import Mathlib

/-!
Verification of the VNI transliteration core (`src/engine/vni.rs`).

The Rust code is shallowly embedded: the composition buffer is a
`List Char`, methods on `&mut self` become explicit state passing, and
the one fallible operation in the code (indexing a `HashMap` that may
lack the key) is embedded with `Option`, `none` standing for the
panic.  Helper modules of the repository that are not part of the
provided source (`util`, `character_map`, and the `PhysicKey`/`Action`
types from the parent module) are modelled from the specification and
carry a doc comment saying so.
-/

namespace Vni

/-- Modelled from the spec: `Action` (the spec's `EditOperation`), either
"delete N characters immediately before the cursor" or "insert one
character at the cursor". -/
inductive Action where
  | Backspace (amount : Nat)
  | Insert (ch : Char)
  deriving DecidableEq, Repr

/-- Modelled from the spec: the press/release state of a `PhysicKey`. -/
inductive KeyState where
  | keyPress
  | keyRelease
  deriving DecidableEq, Repr

/-- Modelled from the spec: `PhysicKey` (the spec's `LogicalKey`): the
produced character (`'\x00'` is the sentinel for "no character"), a
case/shift indicator (`cap`), the press/release state, and the derived
classification predicates (navigation arrow, whitespace, backspace). -/
structure PhysicKey where
  ch : Char
  cap : Option Bool
  state : KeyState
  arrow : Bool
  whitespace : Bool
  backspace : Bool
  deriving DecidableEq, Repr

/-- Embedding of `DiacriticMatch` from `vni.rs`: a char to match, the
chars allowed to pair with it, and the (lowercase, uppercase)
replacement pair. -/
structure DiacriticMatch where
  ch : Char
  pairWith : List Char
  replaceWith : Char × Char
  deriving DecidableEq, Repr

/-- Embedding of Rust's `char::is_ascii_uppercase`. -/
def isAsciiUppercase (c : Char) : Bool :=
  'A' ≤ c && c ≤ 'Z'

/-- Embedding of Rust's `char::to_ascii_lowercase`. -/
def toAsciiLowercase (c : Char) : Char :=
  if isAsciiUppercase c then Char.ofNat (c.toNat + 32) else c

/-- Embedding of Rust's `char::is_ascii_lowercase`. -/
def isAsciiLowercase (c : Char) : Bool :=
  'a' ≤ c && c ≤ 'z'

/-- Embedding of Rust's `char::to_ascii_uppercase`. -/
def toAsciiUppercase (c : Char) : Char :=
  if isAsciiLowercase c then Char.ofNat (c.toNat - 32) else c

/-- Modelled from the spec: `character_map::ACUTE_MAP`, one of the five
fixed 24-entry tables mapping "every plain or diacritic-marked vowel
(lower+upper) to its toned form" (§3 ToneMap). -/
def acuteMap : List (Char × Char) :=
  [('a', 'á'), ('â', 'ấ'), ('ă', 'ắ'), ('e', 'é'), ('ê', 'ế'), ('i', 'í'),
   ('o', 'ó'), ('ô', 'ố'), ('ơ', 'ớ'), ('u', 'ú'), ('ư', 'ứ'), ('y', 'ý'),
   ('A', 'Á'), ('Â', 'Ấ'), ('Ă', 'Ắ'), ('E', 'É'), ('Ê', 'Ế'), ('I', 'Í'),
   ('O', 'Ó'), ('Ô', 'Ố'), ('Ơ', 'Ớ'), ('U', 'Ú'), ('Ư', 'Ứ'), ('Y', 'Ý')]

/-- Modelled from the spec: `character_map::GRAVE_MAP` (§3 ToneMap). -/
def graveMap : List (Char × Char) :=
  [('a', 'à'), ('â', 'ầ'), ('ă', 'ằ'), ('e', 'è'), ('ê', 'ề'), ('i', 'ì'),
   ('o', 'ò'), ('ô', 'ồ'), ('ơ', 'ờ'), ('u', 'ù'), ('ư', 'ừ'), ('y', 'ỳ'),
   ('A', 'À'), ('Â', 'Ầ'), ('Ă', 'Ằ'), ('E', 'È'), ('Ê', 'Ề'), ('I', 'Ì'),
   ('O', 'Ò'), ('Ô', 'Ồ'), ('Ơ', 'Ờ'), ('U', 'Ù'), ('Ư', 'Ừ'), ('Y', 'Ỳ')]

/-- Modelled from the spec: `character_map::HOOK_ABOVE_MAP` (§3 ToneMap). -/
def hookAboveMap : List (Char × Char) :=
  [('a', 'ả'), ('â', 'ẩ'), ('ă', 'ẳ'), ('e', 'ẻ'), ('ê', 'ể'), ('i', 'ỉ'),
   ('o', 'ỏ'), ('ô', 'ổ'), ('ơ', 'ở'), ('u', 'ủ'), ('ư', 'ử'), ('y', 'ỷ'),
   ('A', 'Ả'), ('Â', 'Ẩ'), ('Ă', 'Ẳ'), ('E', 'Ẻ'), ('Ê', 'Ể'), ('I', 'Ỉ'),
   ('O', 'Ỏ'), ('Ô', 'Ổ'), ('Ơ', 'Ở'), ('U', 'Ủ'), ('Ư', 'Ử'), ('Y', 'Ỷ')]

/-- Modelled from the spec: `character_map::TILDE_MAP` (§3 ToneMap). -/
def tildeMap : List (Char × Char) :=
  [('a', 'ã'), ('â', 'ẫ'), ('ă', 'ẵ'), ('e', 'ẽ'), ('ê', 'ễ'), ('i', 'ĩ'),
   ('o', 'õ'), ('ô', 'ỗ'), ('ơ', 'ỡ'), ('u', 'ũ'), ('ư', 'ữ'), ('y', 'ỹ'),
   ('A', 'Ã'), ('Â', 'Ẫ'), ('Ă', 'Ẵ'), ('E', 'Ẽ'), ('Ê', 'Ễ'), ('I', 'Ĩ'),
   ('O', 'Õ'), ('Ô', 'Ỗ'), ('Ơ', 'Ỡ'), ('U', 'Ũ'), ('Ư', 'Ữ'), ('Y', 'Ỹ')]

/-- Modelled from the spec: `character_map::DOT_MAP` (§3 ToneMap). -/
def dotMap : List (Char × Char) :=
  [('a', 'ạ'), ('â', 'ậ'), ('ă', 'ặ'), ('e', 'ẹ'), ('ê', 'ệ'), ('i', 'ị'),
   ('o', 'ọ'), ('ô', 'ộ'), ('ơ', 'ợ'), ('u', 'ụ'), ('ư', 'ự'), ('y', 'ỵ'),
   ('A', 'Ạ'), ('Â', 'Ậ'), ('Ă', 'Ặ'), ('E', 'Ẹ'), ('Ê', 'Ệ'), ('I', 'Ị'),
   ('O', 'Ọ'), ('Ô', 'Ộ'), ('Ơ', 'Ợ'), ('U', 'Ụ'), ('Ư', 'Ự'), ('Y', 'Ỵ')]

/-- Pairs sending each toned Vietnamese character back to its tone-free
form; the inverses of the five tone tables. -/
def toneStripPairs : List (Char × Char) :=
  (acuteMap ++ graveMap ++ hookAboveMap ++ tildeMap ++ dotMap).map
    (fun p => (p.2, p.1))

/-- Modelled from the spec: `util::remove_accents`, the
"accent-stripped-but-diacritic-preserving" form of a character (§4.4):
tone marks are removed, circumflex/breve/horn shape marks are kept.
Characters outside the tables are returned unchanged. -/
def removeAccents (c : Char) : Char :=
  ((toneStripPairs.lookup c).getD c)

/-- Pairs sending each shape-marked letter to its base letter. -/
def shapeStripPairs : List (Char × Char) :=
  [('â', 'a'), ('ă', 'a'), ('ê', 'e'), ('ô', 'o'), ('ơ', 'o'), ('ư', 'u'),
   ('đ', 'd'), ('Â', 'A'), ('Ă', 'A'), ('Ê', 'E'), ('Ô', 'O'), ('Ơ', 'O'),
   ('Ư', 'U'), ('Đ', 'D')]

/-- Modelled from the spec: `util::clean_char`, the glossary's
"accent-stripped form": tone marks and shape diacritics are both
removed, case is preserved. -/
def cleanChar (c : Char) : Char :=
  let c' := removeAccents c
  (shapeStripPairs.lookup c').getD c'

/-- Embedding of `Vni::replace_char_at` from `vni.rs`: the Edit
Synthesizer.  The buffer has not yet been mutated; the method only
reads it and returns the backspace/insert sequence. -/
def replaceCharAt (buffer : List Char) (index : Nat) (ch : Char)
    (isFirstEdit : Bool) : List Action :=
  let bufferLen := buffer.length
  let backspaceAmount := bufferLen - index + (if isFirstEdit then 1 else 0)
  let deletedChars := (buffer.drop (index + 1)).take backspaceAmount
  Action.Backspace backspaceAmount :: Action.Insert ch ::
    deletedChars.map Action.Insert

/-- Embedding of the inner rule loop of `Vni::add_diacritic`: for one
buffer position `i`, try every `DiacriticMatch` in order.  `ch` and
`nextCh` are the values read from the buffer at entry of iteration `i`
(the Rust code computes them once, before the inner loop); the buffer
itself evolves as rules fire. -/
def diacriticInner (ch nextCh : Char) (i : Nat) (bufferLen : Nat) :
    List DiacriticMatch → List Char → List Action → Bool →
    List Action × List Char × Bool
  | [], b, steps, isFirstMatch => (steps, b, isFirstMatch)
  | m :: rest, b, steps, isFirstMatch =>
    if m.ch = toAsciiLowercase (cleanChar ch) then
      let nextChLower := cleanChar (toAsciiLowercase nextCh)
      if m.pairWith.contains nextChLower || i + 1 = bufferLen then
        let replaceChar :=
          if isAsciiUppercase ch then m.replaceWith.2 else m.replaceWith.1
        let steps' := steps ++ replaceCharAt b i replaceChar isFirstMatch
        diacriticInner ch nextCh i bufferLen rest (b.set i replaceChar) steps' false
      else
        diacriticInner ch nextCh i bufferLen rest b steps isFirstMatch
    else
      diacriticInner ch nextCh i bufferLen rest b steps isFirstMatch

/-- Embedding of the outer `for i in 0..buffer_len` loop of
`Vni::add_diacritic`; the index list is `List.range bufferLen`. -/
def addDiacriticGo (rules : List DiacriticMatch) (bufferLen : Nat) :
    List Nat → List Char → List Action → Bool → List Action × List Char
  | [], b, steps, _ => (steps, b)
  | i :: restIdx, b, steps, isFirstMatch =>
    let ch := b.getD i '\x00'
    let nextCh := if i + 1 = bufferLen then b.getD i '\x00' else b.getD (i + 1) '\x00'
    let r := diacriticInner ch nextCh i bufferLen rules b steps isFirstMatch
    addDiacriticGo rules bufferLen restIdx r.2.1 r.1 r.2.2

/-- Embedding of `Vni::add_diacritic` from `vni.rs`: returns the emitted
actions together with the updated buffer (the Rust method mutates
`self.buffer` in place). -/
def addDiacritic (buffer : List Char) (rules : List DiacriticMatch) :
    List Action × List Char :=
  addDiacriticGo rules buffer.length (List.range buffer.length) buffer [] true

/-- Embedding of the `diacritic_chars` array in
`Vni::get_vowel_for_accent`. -/
def diacriticChars : List Char :=
  ['ê', 'â', 'ô', 'ă', 'ư', 'Ê', 'Â', 'Ô', 'Ă', 'Ư']

/-- Embedding of the `pair_with_o_chars` array in
`Vni::get_vowel_for_accent`. -/
def pairWithOChars : List Char :=
  ['a', 'e', 'o', 'y', 'A', 'E', 'O', 'Y']

/-- Embedding of the `vowel_positions` map in
`Vni::get_vowel_for_accent` (priority ranks of the plain vowels). -/
def vowelPositions : List (Char × Int) :=
  [('a', 5), ('e', 4), ('i', 3), ('o', 2), ('u', 1), ('y', 0),
   ('A', 5), ('E', 4), ('I', 3), ('O', 2), ('U', 1), ('Y', 0)]

/-- Embedding of the scan loop of `Vni::get_vowel_for_accent`.  The
first list argument is the not-yet-scanned tail of the buffer (kept in
lockstep with the index argument); the remaining state is
`result_vowel`, `max_vowel_position`, `max_vowel_index`. -/
def getVowelGo (buffer : List Char) :
    List Char → Nat → Option (Char × Nat) → Int → Nat → Option (Char × Nat)
  | [], _, resultVowel, maxVowelPosition, maxVowelIndex =>
    match resultVowel with
    | some v => some v
    | none =>
      if maxVowelPosition ≥ 0 then
        some (buffer.getD maxVowelIndex '\x00', maxVowelIndex)
      else
        none
  | ch :: rest, idx, resultVowel, maxVowelPosition, maxVowelIndex =>
    let chNoAccent := removeAccents ch
    if chNoAccent = 'ơ' ∨ chNoAccent = 'Ơ' then
      some (chNoAccent, idx)
    else if diacriticChars.contains chNoAccent then
      getVowelGo buffer rest (idx + 1) (some (chNoAccent, idx))
        maxVowelPosition maxVowelIndex
    else if chNoAccent = 'o' ∧ idx + 1 < buffer.length ∧
        pairWithOChars.contains (buffer.getD (idx + 1) '\x00') then
      some (buffer.getD (idx + 1) '\x00', idx + 1)
    else if chNoAccent = 'g' ∧ idx + 2 < buffer.length then
      if buffer.getD (idx + 1) '\x00' = 'i' then
        some (buffer.getD (idx + 2) '\x00', idx + 2)
      else
        getVowelGo buffer rest (idx + 1) resultVowel maxVowelPosition maxVowelIndex
    else
      match vowelPositions.lookup chNoAccent with
      | some position =>
        if position > maxVowelPosition then
          getVowelGo buffer rest (idx + 1) resultVowel position idx
        else
          getVowelGo buffer rest (idx + 1) resultVowel maxVowelPosition maxVowelIndex
      | none =>
        getVowelGo buffer rest (idx + 1) resultVowel maxVowelPosition maxVowelIndex

/-- Embedding of `Vni::get_vowel_for_accent` from `vni.rs` (the Vowel
Selector). -/
def getVowelForAccent (buffer : List Char) : Option (Char × Nat) :=
  getVowelGo buffer buffer 0 none (-1) 0

/-- Embedding of `Vni::add_accent` from `vni.rs` (the Accent Applier).
The Rust code indexes a `HashMap` built from the 24-entry table with
the selected character; a missing key panics, embedded as `none`.  The
method never writes `self.buffer`. -/
def addAccent (buffer : List Char) (map : List (Char × Char)) :
    Option (List Action) :=
  match getVowelForAccent buffer with
  | some v =>
    match map.lookup v.1 with
    | some replaceCh => some (replaceCharAt buffer v.2 replaceCh true)
    | none => none
  | none => some []

/-- Embedding of the circumflex rule set (trigger '6') from
`Vni::handle_normal_char`. -/
def circumflexRules : List DiacriticMatch :=
  [⟨'a', ['u', 'n', 'm', 'p', 't', 'c', 'y'], ('â', 'Â')⟩,
   ⟨'e', ['u', 'n', 'm', 'p', 't', 'c', 'y'], ('ê', 'Ê')⟩,
   ⟨'o', ['i', 'n', 'm', 'p', 't', 'c', 'y'], ('ô', 'Ô')⟩]

/-- Embedding of the horn rule set (trigger '7') from
`Vni::handle_normal_char`. -/
def hornRules : List DiacriticMatch :=
  [⟨'u', ['o', 'i', 'n', 'm', 'a', 'p', 't', 'c'], ('ư', 'Ư')⟩,
   ⟨'o', ['i', 'n', 'm', 'p', 't', 'c', 'y'], ('ơ', 'Ơ')⟩]

/-- Embedding of the breve rule set (trigger '8') from
`Vni::handle_normal_char`. -/
def breveRules : List DiacriticMatch :=
  [⟨'a', ['p', 'n', 'm', 't', 'c'], ('ă', 'Ă')⟩]

/-- Embedding of the crossed-d rule set (trigger '9') from
`Vni::handle_normal_char`. -/
def crossedDRules : List DiacriticMatch :=
  [⟨'d', ['a', 'c', 'e', 'i', 'm', 'n', 'o', 'p', 't', 'u', 'y'], ('đ', 'Đ')⟩]

/-- Embedding of `Vni::handle_normal_char` from `vni.rs`: dispatch on
the trigger character; returns the updated buffer and the actions, or
`none` for the panic inside `add_accent`. -/
def handleNormalChar (buffer : List Char) (ch : Char) :
    Option (List Char × List Action) :=
  match ch with
  | '6' => some ((addDiacritic buffer circumflexRules).2,
                 (addDiacritic buffer circumflexRules).1)
  | '7' => some ((addDiacritic buffer hornRules).2,
                 (addDiacritic buffer hornRules).1)
  | '8' => some ((addDiacritic buffer breveRules).2,
                 (addDiacritic buffer breveRules).1)
  | '9' => some ((addDiacritic buffer crossedDRules).2,
                 (addDiacritic buffer crossedDRules).1)
  | '1' => (addAccent buffer acuteMap).map (fun acts => (buffer, acts))
  | '2' => (addAccent buffer graveMap).map (fun acts => (buffer, acts))
  | '3' => (addAccent buffer hookAboveMap).map (fun acts => (buffer, acts))
  | '4' => (addAccent buffer tildeMap).map (fun acts => (buffer, acts))
  | '5' => (addAccent buffer dotMap).map (fun acts => (buffer, acts))
  | _ => some (buffer, [])

/-- Embedding of `Vni::handle_key` from `vni.rs` (the Key Dispatcher):
takes the current buffer and one key, returns the new buffer and the
emitted actions, or `none` for a panic. -/
def handleKey (buffer : List Char) (key : PhysicKey) :
    Option (List Char × List Action) :=
  match key.state with
  | KeyState.keyRelease => some (buffer, [])
  | KeyState.keyPress =>
    if key.arrow || key.whitespace then
      some ([], [])
    else if key.backspace then
      let b1 := buffer.dropLast
      some (if key.ch ≠ '\x00' then b1 ++ [key.ch] else b1, [])
    else
      let ch := match key.cap with
        | some _ => toAsciiUppercase key.ch
        | none => key.ch
      match handleNormalChar buffer ch with
      | none => none
      | some r =>
        some (if ch ≠ '\x00' ∧ r.2 = [] then r.1 ++ [ch] else r.1, r.2)

/-- Helper: a plain key press of character `c` with no shift, not
classified as navigation, whitespace or backspace. -/
def pressKey (c : Char) : PhysicKey :=
  ⟨c, none, KeyState.keyPress, false, false, false⟩

end Vni

namespace Vni

/-- Specification-side form of the Edit Synthesizer output (§4.5
verbatim): delete `(L − index)` characters if not first edit, else
`(L − index + 1)`; then insert `new_char`; then insert each character
of the suffix strictly after `index`, in order. -/
def synthesizeSpec (buffer : List Char) (index : Nat) (newChar : Char)
    (isFirstEdit : Bool) : List Action :=
  Action.Backspace
      (if isFirstEdit then buffer.length - index + 1 else buffer.length - index)
    :: Action.Insert newChar
    :: (buffer.drop (index + 1)).map Action.Insert

/-- Semantics of one `EditOperation` on a host text field whose cursor
sits at the end: a backspace of `n` removes the last `n` characters, an
insert appends one character. -/
def applyAction (field : List Char) : Action → List Char
  | Action.Backspace n => field.take (field.length - n)
  | Action.Insert c => field ++ [c]

/-- Semantics of an `EditOperation` sequence, applied in order. -/
def applyActions (field : List Char) (acts : List Action) : List Char :=
  acts.foldl applyAction field

/-- Specification-side matching condition of the Diacritic Matcher at
one buffer position (§4.2): the rule's base letter equals the
accent-stripped, case-folded character, and the accent-stripped,
case-folded follower is permitted (or the position is last). -/
def matchCond (b : List Char) (i : Nat) (m : DiacriticMatch) : Bool :=
  let ch := b.getD i '\x00'
  let nextCh := if i + 1 = b.length then b.getD i '\x00' else b.getD (i + 1) '\x00'
  (m.ch == toAsciiLowercase (cleanChar ch)) &&
    (m.pairWith.contains (cleanChar (toAsciiLowercase nextCh)) ||
      decide (i + 1 = b.length))

/-- Replacement character a rule writes at position `i`: the uppercase
form when the original character is ASCII uppercase, else lowercase. -/
def hitRepl (b : List Char) (i : Nat) (m : DiacriticMatch) : Char :=
  if isAsciiUppercase (b.getD i '\x00') then m.replaceWith.2 else m.replaceWith.1

/-- Hits of the Diacritic Matcher at one position: the rules in order
whose condition holds there, with their replacement character. -/
def hitsAt (b : List Char) (rules : List DiacriticMatch) (i : Nat) :
    List (Nat × Char) :=
  rules.filterMap fun m =>
    if matchCond b i m then some (i, hitRepl b i m) else none

/-- All hits of a diacritic-trigger call, scanning positions left to
right over the original buffer. -/
def diacriticHits (b : List Char) (rules : List DiacriticMatch) :
    List (Nat × Char) :=
  (List.range b.length).flatMap (hitsAt b rules)

/-- Specification-side synthesized steps for a list of hits: each hit
contributes one Edit Synthesizer call against the original buffer, and
only the first hit overall is synthesized as a first edit. -/
def hitStepsF (b : List Char) : Bool → List (Nat × Char) → List Action
  | _, [] => []
  | first, p :: rest => replaceCharAt b p.1 p.2 first ++ hitStepsF b false rest

/-- Applying a list of hits to the buffer, in order. -/
def applyHits (b : List Char) (hs : List (Nat × Char)) : List Char :=
  hs.foldl (fun acc p => acc.set p.1 p.2) b

/-- Whether the Vowel Selector scan short-circuits (returns from inside
the loop) at position `j`: a back-rounded vowel, an `o`-cluster, or a
`gi` digraph with a third character. -/
def scAt (b : List Char) (j : Nat) : Bool :=
  let c := removeAccents (b.getD j '\x00')
  c == 'ơ' || c == 'Ơ' ||
    (c == 'o' && decide (j + 1 < b.length) &&
      pairWithOChars.contains (b.getD (j + 1) '\x00')) ||
    (c == 'g' && decide (j + 2 < b.length) && b.getD (j + 1) '\x00' == 'i')

/-- The five tone trigger characters. -/
def toneTriggers : List Char := ['1', '2', '3', '4', '5']

/-- The four diacritic trigger characters. -/
def diacriticTriggers : List Char := ['6', '7', '8', '9']

/-- Rule set dispatched for a diacritic trigger character. -/
def diacriticRulesFor (d : Char) : List DiacriticMatch :=
  match d with
  | '6' => circumflexRules
  | '7' => hornRules
  | '8' => breveRules
  | '9' => crossedDRules
  | _ => []

/-- Tone map dispatched for a tone trigger character. -/
def toneMapFor (d : Char) : List (Char × Char) :=
  match d with
  | '1' => acuteMap
  | '2' => graveMap
  | '3' => hookAboveMap
  | '4' => tildeMap
  | '5' => dotMap
  | _ => []

/-- The follower character the Diacritic Matcher reads at position `i`:
the character after `i`, or the character at `i` itself when `i` is
last. -/
def nextChOf (b : List Char) (i : Nat) : Char :=
  if i + 1 = b.length then b.getD i '\x00' else b.getD (i + 1) '\x00'

/-- Hits of the scan from position `i` on. -/
def hitsFrom (b : List Char) (rules : List DiacriticMatch) (i : Nat) :
    List (Nat × Char) :=
  (List.range' i (b.length - i)).flatMap (hitsAt b rules)

/-- Condition of claim C5: the pressed digit is a trigger and no rewrite
applies — for a diacritic trigger the Diacritic Matcher finds no
matching (letter, follower) pair anywhere; for a tone trigger the Vowel
Selector returns none. -/
def noApplicableMatch (b : List Char) (d : Char) : Bool :=
  if d ∈ diacriticTriggers then (diacriticHits b (diacriticRulesFor d)).isEmpty
  else if d ∈ toneTriggers then (getVowelForAccent b).isNone
  else false

end Vni

namespace Vni

/-- C2: for every buffer of length L, every index < L, every replacement
character and every is_first_edit flag, the synthesized operation
sequence is exactly one delete of (L − index) characters (one more on a
first edit), then an insert of the replacement character, then one
insert per character of the suffix strictly after the index, in their
original buffer order. -/
theorem c2_theorem (b : List Char) (index : Nat) (c : Char) (isFirstEdit : Bool)
    (h : index < b.length) :
    replaceCharAt b index c isFirstEdit = synthesizeSpec b index c isFirstEdit := by
  simp only [replaceCharAt, synthesizeSpec]
  have hlen : (b.drop (index + 1)).length ≤
      b.length - index + (if isFirstEdit then 1 else 0) := by
    simp [List.length_drop]; omega
  rw [List.take_of_length_le hlen]
  cases isFirstEdit <;> simp

/-- Witness for C2 at a concrete input: rewriting index 1 of a
four-character buffer as a first edit. -/
theorem c2_witness :
    replaceCharAt ['t', 'o', 'a', 'n'] 1 'ó' true =
      synthesizeSpec ['t', 'o', 'a', 'n'] 1 'ó' true :=
  c2_theorem ['t', 'o', 'a', 'n'] 1 'ó' true (by decide)

/-- Counterexample for C4: the claim says the buffer stays `["a","q"]`,
but `handle_key` appends the rejected trigger digit '6' as an ordinary
literal, so the result is not `(["a","q"], [])`. -/
theorem c4_counterexample :
    ¬ (handleKey ['a', 'q'] (pressKey '6') = some (['a', 'q'], [])) := by
  decide

/-- C4 (amended): starting from the buffer `["a","q"]`, pressing the
circumflex trigger '6' emits no operations ('q' is not a permitted
follower of 'a'), and the digit itself is appended to the buffer, which
becomes `["a","q","6"]`. -/
theorem c4_theorem :
    handleKey ['a', 'q'] (pressKey '6') = some (['a', 'q', '6'], []) := by
  decide

/-- C10: the buffer `["g","i","n"]` is reachable from the empty buffer
by three ordinary key presses; on the acute tone trigger '1' the Vowel
Selector then returns `('n', 2)` via the gi-digraph rule, `'n'` is not
among the 24 keys of the tone map, and the unchecked `HashMap` index in
`add_accent` panics (embedded as `none`), so `handle_key` is not total
on reachable states. -/
theorem c10_theorem :
    handleKey [] (pressKey 'g') = some (['g'], []) ∧
    handleKey ['g'] (pressKey 'i') = some (['g', 'i'], []) ∧
    handleKey ['g', 'i'] (pressKey 'n') = some (['g', 'i', 'n'], []) ∧
    getVowelForAccent ['g', 'i', 'n'] = some ('n', 2) ∧
    acuteMap.lookup 'n' = none ∧
    handleKey ['g', 'i', 'n'] (pressKey '1') = none := by
  decide

/-- Counterexample for C1: on the tone trigger '1' over the buffer
`["a"]` the Edit Synthesizer emits the operations for rewriting
position 0 with 'á', yet the composition buffer still holds 'a' at
position 0 afterwards — `add_accent` never writes the buffer. -/
theorem c1_counterexample :
    handleKey ['a'] (pressKey '1') =
      some (['a'], [Action.Backspace 2, Action.Insert 'á']) ∧
    ¬ (['a'].getD 0 '\x00' = 'á') := by
  decide

/-- Counterexample for C3: for the tone trigger '1' on buffer `["a"]`,
applying the emitted operations to a field holding the pre-rewrite
buffer plus the trigger character yields `"á"`, which differs from the
post-call stored buffer `["a"]`. -/
theorem c3_counterexample :
    handleKey ['a'] (pressKey '1') =
      some (['a'], [Action.Backspace 2, Action.Insert 'á']) ∧
    applyActions ['a', '1'] [Action.Backspace 2, Action.Insert 'á'] = ['á'] ∧
    ¬ (['á'] = ['a']) := by
  decide

/-- Counterexample for C6: in the buffer `["O","y"]` position 0
accent-strips to an uppercase plain 'O' and position 1 accent-strips to
'y' (a permitted cluster follower), no earlier rule fires, yet the
Vowel Selector returns position 0, not position 1 — the cluster rule of
the code tests only the lowercase 'o'. -/
theorem c6_counterexample :
    removeAccents 'O' = 'O' ∧ removeAccents 'y' = 'y' ∧
    pairWithOChars.contains 'y' = true ∧
    getVowelForAccent ['O', 'y'] = some ('O', 0) ∧
    ¬ ((getVowelForAccent ['O', 'y']).map Prod.snd = some 1) := by
  decide

/-- Counterexample for C7: the buffer `["o","a","ơ"]` contains a
character accent-stripping to 'ơ' at position 2, yet the Vowel Selector
returns position 1: the earlier o-cluster rule short-circuits the scan
before the back-rounded vowel is reached, so the 'ơ' rule does not
override every other rule. -/
theorem c7_counterexample :
    removeAccents 'ơ' = 'ơ' ∧
    getVowelForAccent ['o', 'a', 'ơ'] = some ('a', 1) ∧
    ¬ ((getVowelForAccent ['o', 'a', 'ơ']).map Prod.snd = some 2) := by
  decide

/-- Counterexample for C9: the non-ASCII uppercase letter 'Â' in a
one-character buffer is matched by the circumflex rule (its
accent-stripped form is 'A'), but `is_ascii_uppercase` is false on it,
so the lowercase replacement 'â' is written instead of the uppercase
form. -/
theorem c9_counterexample :
    cleanChar 'Â' = 'A' ∧ isAsciiUppercase 'Â' = false ∧
    addDiacritic ['Â'] circumflexRules =
      ([Action.Backspace 2, Action.Insert 'â'], ['â']) ∧
    ¬ (('â' : Char) = 'Â') := by
  decide

end Vni

namespace Vni

lemma drop_cons_of_lt (l : List Char) (j : Nat) (h : j < l.length) :
    l.drop j = l.getD j '\x00' :: l.drop (j + 1) := by
  rw [List.drop_eq_getElem_cons h, List.getD_eq_getElem l '\x00' h]

lemma getVowelGo_step (b : List Char) (j : Nat) (hj : j < b.length)
    (hsc : scAt b j = false) (rv : Option (Char × Nat)) (mp : Int) (mi : Nat) :
    ∃ rv' mp' mi', getVowelGo b (b.drop j) j rv mp mi
      = getVowelGo b (b.drop (j + 1)) (j + 1) rv' mp' mi' := by
  simp only [scAt, Bool.or_eq_false_iff, Bool.and_eq_false_iff,
    beq_eq_false_iff_ne, decide_eq_false_iff_not, ne_eq] at hsc
  obtain ⟨⟨⟨h1, h2⟩, h3⟩, h4⟩ := hsc
  rw [drop_cons_of_lt b j hj]
  simp only [getVowelGo]
  rw [if_neg (by tauto)]
  by_cases hd : diacriticChars.contains (removeAccents (b.getD j '\x00')) = true
  · rw [if_pos hd]
    exact ⟨_, _, _, rfl⟩
  · rw [if_neg hd]
    rw [if_neg (fun hcl => by
      rcases hcl with ⟨ho, hlt, hc⟩
      rcases h3 with (h | h) | h
      · exact h ho
      · exact h hlt
      · rw [hc] at h; cases h)]
    by_cases hg : removeAccents (b.getD j '\x00') = 'g' ∧ j + 2 < b.length
    · rw [if_pos hg]
      rw [if_neg (fun hi => by
        rcases h4 with (h | h) | h
        · exact h hg.1
        · exact h hg.2
        · exact h hi)]
      exact ⟨_, _, _, rfl⟩
    · rw [if_neg hg]
      cases hlk : List.lookup (removeAccents (b.getD j '\x00')) vowelPositions with
      | none => simp only [hlk]; exact ⟨_, _, _, rfl⟩
      | some position =>
        simp only [hlk]
        by_cases hgt : position > mp
        · rw [if_pos hgt]; exact ⟨_, _, _, rfl⟩
        · rw [if_neg hgt]; exact ⟨_, _, _, rfl⟩

lemma getVowelGo_reach (b : List Char) (i : Nat) (hi : i ≤ b.length)
    (hsc : ∀ j, j < i → scAt b j = false) :
    ∃ rv mp mi, getVowelForAccent b = getVowelGo b (b.drop i) i rv mp mi := by
  induction i with
  | zero => exact ⟨none, -1, 0, by simp [getVowelForAccent]⟩
  | succ n ih =>
    obtain ⟨rv, mp, mi, heq⟩ := ih (by omega) (fun j hj => hsc j (by omega))
    obtain ⟨rv', mp', mi', hstep⟩ :=
      getVowelGo_step b n (by omega) (hsc n (by omega)) rv mp mi
    exact ⟨rv', mp', mi', heq.trans hstep⟩

/-- C7 (amended): if position i is the first position whose character
accent-strips to the back-rounded vowel ('ơ' or 'Ơ') and no earlier
position short-circuits the scan (no earlier o-cluster or gi-digraph
rule fires), the Vowel Selector returns position i.  Earlier
diacritic-marked vowels and plain vowels do not block it; an earlier
short-circuiting rule does. -/
theorem c7_theorem (b : List Char) (i : Nat) (hi : i < b.length)
    (hor : removeAccents (b.getD i '\x00') = 'ơ' ∨
           removeAccents (b.getD i '\x00') = 'Ơ')
    (hpre : ∀ j, j < i → scAt b j = false) :
    getVowelForAccent b = some (removeAccents (b.getD i '\x00'), i) := by
  obtain ⟨rv, mp, mi, heq⟩ := getVowelGo_reach b i (by omega) hpre
  rw [heq, drop_cons_of_lt b i hi]
  simp only [getVowelGo]
  rw [if_pos hor]

/-- Witness for C7 at the spec's example: for the buffer
`["t","h","ư","ơ","n","g"]` the selector picks the 'ơ' at index 3,
over the earlier diacritic-marked 'ư'. -/
theorem c7_witness :
    getVowelForAccent ['t', 'h', 'ư', 'ơ', 'n', 'g'] = some ('ơ', 3) :=
  c7_theorem ['t', 'h', 'ư', 'ơ', 'n', 'g'] 3 (by decide) (by decide) (by decide)

/-- C6 (amended): if position i accent-strips to the lowercase plain
'o', the literal character at position i+1 is one of
a/e/o/y/A/E/O/Y (the code tests the raw follower, not its
accent-stripped form, and only lowercase 'o' starts a cluster), and no
earlier position short-circuits the scan, the Vowel Selector returns
position i+1. -/
theorem c6_theorem (b : List Char) (i : Nat)
    (hnext : i + 1 < b.length)
    (ho : removeAccents (b.getD i '\x00') = 'o')
    (hpair : pairWithOChars.contains (b.getD (i + 1) '\x00') = true)
    (hpre : ∀ j, j < i → scAt b j = false) :
    getVowelForAccent b = some (b.getD (i + 1) '\x00', i + 1) := by
  obtain ⟨rv, mp, mi, heq⟩ := getVowelGo_reach b i (by omega) hpre
  rw [heq, drop_cons_of_lt b i (by omega)]
  simp only [getVowelGo]
  rw [if_neg (by rw [ho]; decide), if_neg (by rw [ho]; decide),
    if_pos ⟨ho, hnext, hpair⟩]

/-- Witness for C6 at the spec's example: for the buffer
`["h","o","a"]` the selector returns the 'a' at index 2, not the 'o'. -/
theorem c6_witness : getVowelForAccent ['h', 'o', 'a'] = some ('a', 2) :=
  c6_theorem ['h', 'o', 'a'] 1 (by decide) (by decide) (by decide) (by decide)

end Vni

namespace Vni

lemma drop_eq_split (b bc : List Char) (i : Nat) (hi : i < b.length)
    (hlen : bc.length = b.length) (hdrop : bc.drop i = b.drop i) :
    bc.getD i '\x00' = b.getD i '\x00' ∧ bc.drop (i + 1) = b.drop (i + 1) := by
  rw [drop_cons_of_lt bc i (by omega), drop_cons_of_lt b i hi] at hdrop
  exact ⟨List.head_eq_of_cons_eq hdrop, List.tail_eq_of_cons_eq hdrop⟩

lemma replaceCharAt_congr (b₁ b₂ : List Char) (i : Nat) (c : Char) (f : Bool)
    (hlen : b₁.length = b₂.length) (hdrop : b₁.drop (i + 1) = b₂.drop (i + 1)) :
    replaceCharAt b₁ i c f = replaceCharAt b₂ i c f := by
  simp only [replaceCharAt, hlen, hdrop]

lemma hitsAt_pos (b : List Char) (rules : List DiacriticMatch) (i : Nat) :
    ∀ p ∈ hitsAt b rules i, p.1 = i := by
  intro p hp
  obtain ⟨m, hm, hif⟩ := List.mem_filterMap.mp hp
  by_cases hc : matchCond b i m = true
  · rw [if_pos hc] at hif
    cases hif
    rfl
  · rw [if_neg hc] at hif
    cases hif

lemma applyHits_length (bc : List Char) (hs : List (Nat × Char)) :
    (applyHits bc hs).length = bc.length := by
  induction hs generalizing bc with
  | nil => rfl
  | cons p t ih => simp only [applyHits, List.foldl_cons] at *; rw [ih, List.length_set]

lemma applyHits_drop_of_lt (bc : List Char) (hs : List (Nat × Char)) (k : Nat)
    (h : ∀ p ∈ hs, p.1 < k) :
    (applyHits bc hs).drop k = bc.drop k := by
  induction hs generalizing bc with
  | nil => rfl
  | cons p t ih =>
    simp only [applyHits, List.foldl_cons] at *
    rw [ih (bc.set p.1 p.2) (fun q hq => h q (List.mem_cons_of_mem p hq)),
      List.drop_set_of_lt _ _ (h p (List.mem_cons_self p t))]

lemma applyHits_append (bc : List Char) (xs ys : List (Nat × Char)) :
    applyHits bc (xs ++ ys) = applyHits (applyHits bc xs) ys := by
  simp [applyHits, List.foldl_append]

lemma hitStepsF_append (b : List Char) (f : Bool) (xs ys : List (Nat × Char)) :
    hitStepsF b f (xs ++ ys) = hitStepsF b f xs ++ hitStepsF b (f && xs.isEmpty) ys := by
  induction xs generalizing f with
  | nil => cases f <;> simp [hitStepsF]
  | cons p t ih => simp [hitStepsF, ih false]

lemma diacriticInner_spec (b : List Char) (i : Nat) (_hi : i < b.length)
    (rules : List DiacriticMatch) :
    ∀ (bc : List Char) (steps : List Action) (first : Bool),
    bc.length = b.length →
    bc.drop (i + 1) = b.drop (i + 1) →
    diacriticInner (b.getD i '\x00') (nextChOf b i) i b.length rules bc steps first
      = (steps ++ hitStepsF b first (hitsAt b rules i),
         applyHits bc (hitsAt b rules i),
         first && (hitsAt b rules i).isEmpty) := by
  induction rules with
  | nil =>
    intro bc steps first hlen hdrop
    simp [diacriticInner, hitsAt, hitStepsF, applyHits]
  | cons m rest ih =>
    intro bc steps first hlen hdrop
    by_cases h1 : m.ch = toAsciiLowercase (cleanChar (b.getD i '\x00'))
    · by_cases h2 : (m.pairWith.contains (cleanChar (toAsciiLowercase (nextChOf b i)))
          || decide (i + 1 = b.length)) = true
      · have hc : matchCond b i m = true := by
          simp only [matchCond, Bool.and_eq_true]
          simp only [nextChOf] at h2
          exact ⟨beq_iff_eq.mpr h1, h2⟩
        have hhits : hitsAt b (m :: rest) i = (i, hitRepl b i m) :: hitsAt b rest i := by
          simp [hitsAt, hc]
        simp only [diacriticInner]
        rw [if_pos h1, if_pos h2]
        rw [ih (bc.set i (if isAsciiUppercase (b.getD i '\x00') = true
              then m.replaceWith.2 else m.replaceWith.1)) _ false
            (by rw [List.length_set]; exact hlen)
            (by rw [List.drop_set_of_lt _ _ (by omega)]; exact hdrop)]
        rw [hhits]
        simp only [hitStepsF, applyHits, List.foldl_cons, hitRepl]
        rw [replaceCharAt_congr bc b i _ first hlen hdrop]
        simp [List.append_assoc]
      · have hc : matchCond b i m = false := by
          simp only [matchCond, Bool.and_eq_false_iff]
          right
          simp only [nextChOf] at h2
          exact Bool.eq_false_iff.mpr h2
        have hhits : hitsAt b (m :: rest) i = hitsAt b rest i := by
          simp [hitsAt, hc]
        simp only [diacriticInner]
        rw [if_pos h1, if_neg h2]
        rw [ih bc steps first hlen hdrop, hhits]
    · have hc : matchCond b i m = false := by
        simp only [matchCond, Bool.and_eq_false_iff]
        left
        exact beq_eq_false_iff_ne.mpr h1
      have hhits : hitsAt b (m :: rest) i = hitsAt b rest i := by
        simp [hitsAt, hc]
      simp only [diacriticInner]
      rw [if_neg h1]
      rw [ih bc steps first hlen hdrop, hhits]

lemma hitsFrom_cons (b : List Char) (rules : List DiacriticMatch) (i : Nat)
    (h : i < b.length) :
    hitsFrom b rules i = hitsAt b rules i ++ hitsFrom b rules (i + 1) := by
  unfold hitsFrom
  have hlen : b.length - i = (b.length - (i + 1)) + 1 := by omega
  rw [hlen, List.range'_succ, List.flatMap_cons]

lemma addDiacriticGo_spec (b : List Char) (rules : List DiacriticMatch) :
    ∀ (n i : Nat) (bc : List Char) (steps : List Action) (first : Bool),
    i + n = b.length →
    bc.length = b.length →
    bc.drop i = b.drop i →
    addDiacriticGo rules b.length (List.range' i n) bc steps first
      = (steps ++ hitStepsF b first (hitsFrom b rules i),
         applyHits bc (hitsFrom b rules i)) := by
  intro n
  induction n with
  | zero =>
    intro i bc steps first hn hlen hdrop
    have h0 : b.length - i = 0 := by omega
    simp [addDiacriticGo, hitsFrom, h0, hitStepsF, applyHits]
  | succ n ih =>
    intro i bc steps first hn hlen hdrop
    have hi : i < b.length := by omega
    obtain ⟨hgetD, hdropS⟩ := drop_eq_split b bc i hi hlen hdrop
    rw [List.range'_succ]
    simp only [addDiacriticGo]
    have hnext : (if i + 1 = b.length then bc.getD i '\x00'
        else bc.getD (i + 1) '\x00') = nextChOf b i := by
      unfold nextChOf
      by_cases h : i + 1 = b.length
      · rw [if_pos h, if_pos h, hgetD]
      · rw [if_neg h, if_neg h]
        exact (drop_eq_split b bc (i + 1) (by omega) hlen hdropS).1
    rw [hnext, hgetD]
    rw [diacriticInner_spec b i hi rules bc steps first hlen hdropS]
    have hposAt : ∀ p ∈ hitsAt b rules i, p.1 < i + 1 := by
      intro p hp
      rw [hitsAt_pos b rules i p hp]
      omega
    rw [ih (i + 1) (applyHits bc (hitsAt b rules i))
        (steps ++ hitStepsF b first (hitsAt b rules i))
        (first && (hitsAt b rules i).isEmpty)
        (by omega)
        (by rw [applyHits_length]; exact hlen)
        (by rw [applyHits_drop_of_lt bc _ _ hposAt]; exact hdropS)]
    rw [hitsFrom_cons b rules i hi, hitStepsF_append, applyHits_append,
      List.append_assoc]

lemma addDiacritic_spec (b : List Char) (rules : List DiacriticMatch) :
    addDiacritic b rules
      = (hitStepsF b true (diacriticHits b rules),
         applyHits b (diacriticHits b rules)) := by
  unfold addDiacritic
  rw [List.range_eq_range']
  have h := addDiacriticGo_spec b rules b.length 0 b [] true (by omega) rfl rfl
  simpa [hitsFrom, diacriticHits, List.range_eq_range'] using h

end Vni

namespace Vni

lemma applyActions_append (field : List Char) (xs ys : List Action) :
    applyActions field (xs ++ ys) = applyActions (applyActions field xs) ys := by
  simp [applyActions, List.foldl_append]

lemma applyActions_inserts (l : List Char) :
    ∀ field, applyActions field (l.map Action.Insert) = field ++ l := by
  induction l with
  | nil => intro field; simp [applyActions]
  | cons c t ih =>
    intro field
    simp only [List.map_cons, applyActions, List.foldl_cons, applyAction]
    have := ih (field ++ [c])
    simp only [applyActions] at this
    rw [this]
    simp

lemma roundTrip_single (pre b : List Char) (i : Nat) (c : Char) (f : Bool)
    (ext : List Char) (hi : i < b.length)
    (hext : ext.length = if f then 1 else 0) :
    applyActions (pre ++ b ++ ext) (replaceCharAt b i c f)
      = pre ++ b.set i c := by
  have htake : (b.drop (i + 1)).take (b.length - i + if f then 1 else 0)
      = b.drop (i + 1) := by
    apply List.take_of_length_le
    simp [List.length_drop]
    omega
  simp only [replaceCharAt, htake]
  simp only [applyActions, List.foldl_cons]
  have hba : applyAction (pre ++ b ++ ext) (Action.Backspace
      (b.length - i + if f then 1 else 0)) = pre ++ b.take i := by
    simp only [applyAction]
    have hlen : (pre ++ b ++ ext).length = pre.length + b.length + ext.length := by
      simp
      omega
    rw [hlen, hext]
    have harith : pre.length + b.length + (if f then 1 else 0)
        - (b.length - i + if f then 1 else 0) = pre.length + i := by
      cases f <;> simp <;> omega
    rw [harith, List.append_assoc, List.take_append,
      List.take_append_of_le_length (by omega)]
  rw [hba]
  have hfold : List.foldl applyAction (pre ++ b.take i ++ [c])
      ((b.drop (i + 1)).map Action.Insert)
      = pre ++ b.take i ++ [c] ++ b.drop (i + 1) := by
    have := applyActions_inserts (b.drop (i + 1)) (pre ++ b.take i ++ [c])
    simpa [applyActions] using this
  have hins : applyAction (pre ++ b.take i) (Action.Insert c)
      = pre ++ b.take i ++ [c] := rfl
  rw [hins, hfold]
  rw [List.set_eq_take_cons_drop c hi]
  simp [List.append_assoc]

lemma hitsFrom_bounds (b : List Char) (rules : List DiacriticMatch) :
    ∀ (n i : Nat), i + n = b.length →
    ∀ p ∈ hitsFrom b rules i, i ≤ p.1 ∧ p.1 < b.length := by
  intro n
  induction n with
  | zero =>
    intro i hn p hp
    have h0 : b.length - i = 0 := by omega
    simp [hitsFrom, h0] at hp
  | succ n ih =>
    intro i hn p hp
    rw [hitsFrom_cons b rules i (by omega)] at hp
    rcases List.mem_append.mp hp with h | h
    · have := hitsAt_pos b rules i p h
      omega
    · have := ih (i + 1) (by omega) p h
      omega

lemma pairwise_le_of_const (i : Nat) :
    ∀ (l : List (Nat × Char)), (∀ p ∈ l, p.1 = i) →
    l.Pairwise (fun p q => p.1 ≤ q.1) := by
  intro l
  induction l with
  | nil => intro _; exact List.Pairwise.nil
  | cons p t ih =>
    intro h
    refine List.Pairwise.cons ?_ (ih fun q hq => h q (List.mem_cons_of_mem p hq))
    intro q hq
    rw [h p (List.mem_cons_self p t), h q (List.mem_cons_of_mem p hq)]

lemma hitsFrom_pairwise_le (b : List Char) (rules : List DiacriticMatch) :
    ∀ (n i : Nat), i + n = b.length →
    (hitsFrom b rules i).Pairwise (fun p q => p.1 ≤ q.1) := by
  intro n
  induction n with
  | zero =>
    intro i hn
    have h0 : b.length - i = 0 := by omega
    simp [hitsFrom, h0]
  | succ n ih =>
    intro i hn
    rw [hitsFrom_cons b rules i (by omega), List.pairwise_append]
    refine ⟨pairwise_le_of_const i _ (hitsAt_pos b rules i), ih (i + 1) (by omega), ?_⟩
    intro p hp q hq
    have h1 := hitsAt_pos b rules i p hp
    have h2 := (hitsFrom_bounds b rules n (i + 1) (by omega) q hq).1
    omega

lemma diacriticHits_eq_hitsFrom (b : List Char) (rules : List DiacriticMatch) :
    diacriticHits b rules = hitsFrom b rules 0 := by
  simp [diacriticHits, hitsFrom, List.range_eq_range']

lemma diacriticHits_pairwise_le (b : List Char) (rules : List DiacriticMatch) :
    (diacriticHits b rules).Pairwise (fun p q => p.1 ≤ q.1) := by
  rw [diacriticHits_eq_hitsFrom]
  exact hitsFrom_pairwise_le b rules b.length 0 (by omega)

lemma diacriticHits_lt (b : List Char) (rules : List DiacriticMatch) :
    ∀ p ∈ diacriticHits b rules, p.1 < b.length := by
  intro p hp
  rw [diacriticHits_eq_hitsFrom] at hp
  exact (hitsFrom_bounds b rules b.length 0 (by omega) p hp).2

lemma matchCond_ch (b : List Char) (i : Nat) (m : DiacriticMatch)
    (hc : matchCond b i m = true) :
    m.ch = toAsciiLowercase (cleanChar (b.getD i '\x00')) := by
  simp only [matchCond, Bool.and_eq_true, beq_iff_eq] at hc
  exact hc.1

lemma hitsAt_length_le_one (b : List Char) (i : Nat) :
    ∀ (rules : List DiacriticMatch),
    rules.Pairwise (fun m₁ m₂ => m₁.ch ≠ m₂.ch) →
    (hitsAt b rules i).length ≤ 1 := by
  intro rules
  induction rules with
  | nil => intro _; simp [hitsAt]
  | cons m rest ih =>
    intro hpw
    have hne : ∀ x ∈ rest, m.ch ≠ x.ch :=
      fun x hx => List.rel_of_pairwise_cons hpw hx
    have hrest : rest.Pairwise (fun m₁ m₂ => m₁.ch ≠ m₂.ch) :=
      List.Pairwise.of_cons hpw
    by_cases hc : matchCond b i m = true
    · have hnil : hitsAt b rest i = [] := by
        rw [hitsAt, List.filterMap_eq_nil_iff]
        intro x hx
        rw [if_neg ?_]
        intro hcx
        exact hne x hx ((matchCond_ch b i m hc).trans (matchCond_ch b i x hcx).symm)
      have hcons : hitsAt b (m :: rest) i = (i, hitRepl b i m) :: hitsAt b rest i := by
        simp [hitsAt, hc]
      rw [hcons, hnil]
      simp
    · have heq : hitsAt b (m :: rest) i = hitsAt b rest i := by
        simp [hitsAt, hc]
      rw [heq]
      exact ih hrest

lemma pairwise_of_length_le_one {R : (Nat × Char) → (Nat × Char) → Prop} :
    ∀ (l : List (Nat × Char)), l.length ≤ 1 → l.Pairwise R := by
  intro l h
  match l with
  | [] => exact List.Pairwise.nil
  | [x] => exact List.pairwise_singleton R x
  | x :: y :: t => simp at h

lemma hitsFrom_pairwise_ne (b : List Char) (rules : List DiacriticMatch)
    (hpw : rules.Pairwise (fun m₁ m₂ => m₁.ch ≠ m₂.ch)) :
    ∀ (n i : Nat), i + n = b.length →
    (hitsFrom b rules i).Pairwise (fun p q => p.1 ≠ q.1) := by
  intro n
  induction n with
  | zero =>
    intro i hn
    have h0 : b.length - i = 0 := by omega
    simp [hitsFrom, h0]
  | succ n ih =>
    intro i hn
    rw [hitsFrom_cons b rules i (by omega), List.pairwise_append]
    refine ⟨pairwise_of_length_le_one _ (hitsAt_length_le_one b i rules hpw),
      ih (i + 1) (by omega), ?_⟩
    intro p hp q hq
    have h1 := hitsAt_pos b rules i p hp
    have h2 := (hitsFrom_bounds b rules n (i + 1) (by omega) q hq).1
    omega

lemma diacriticHits_pairwise_ne (b : List Char) (rules : List DiacriticMatch)
    (hpw : rules.Pairwise (fun m₁ m₂ => m₁.ch ≠ m₂.ch)) :
    (diacriticHits b rules).Pairwise (fun p q => p.1 ≠ q.1) := by
  rw [diacriticHits_eq_hitsFrom]
  exact hitsFrom_pairwise_ne b rules hpw b.length 0 (by omega)

lemma getD_set_ne (l : List Char) (m n : Nat) (a : Char) (h : m ≠ n) :
    (l.set m a).getD n '\x00' = l.getD n '\x00' := by
  rw [List.getD_eq_getElem?_getD, List.getD_eq_getElem?_getD,
    List.getElem?_set_ne h]

lemma getD_set_self (l : List Char) (n : Nat) (a : Char) (h : n < l.length) :
    (l.set n a).getD n '\x00' = a := by
  rw [List.getD_eq_getElem?_getD, List.getElem?_set_self (by omega)]
  rfl

lemma applyHits_getD_not_mem (i : Nat) :
    ∀ (hs : List (Nat × Char)) (bc : List Char), (∀ p ∈ hs, p.1 ≠ i) →
    (applyHits bc hs).getD i '\x00' = bc.getD i '\x00' := by
  intro hs
  induction hs with
  | nil => intro bc _; rfl
  | cons q t ih =>
    intro bc h
    simp only [applyHits, List.foldl_cons] at *
    rw [ih (bc.set q.1 q.2) (fun p hp => h p (List.mem_cons_of_mem q hp)),
      getD_set_ne bc q.1 i q.2 (h q (List.mem_cons_self q t))]

lemma applyHits_getD :
    ∀ (hs : List (Nat × Char)) (bc : List Char),
    hs.Pairwise (fun p q => p.1 ≠ q.1) →
    ∀ p ∈ hs, p.1 < bc.length →
    (applyHits bc hs).getD p.1 '\x00' = p.2 := by
  intro hs
  induction hs with
  | nil => intro bc _ p hp; cases hp
  | cons q t ih =>
    intro bc hpw p hp hlt
    simp only [applyHits, List.foldl_cons] at *
    rcases List.mem_cons.mp hp with h | h
    · subst h
      have hne : ∀ r ∈ t, r.1 ≠ p.1 :=
        fun r hr hc => (List.rel_of_pairwise_cons hpw hr) hc.symm
      have h1 := applyHits_getD_not_mem p.1 t (bc.set p.1 p.2) hne
      simp only [applyHits] at h1
      rw [h1]
      exact getD_set_self bc p.1 p.2 hlt
    · exact ih (bc.set q.1 q.2) (List.Pairwise.of_cons hpw) p h
        (by rw [List.length_set]; exact hlt)

lemma applyActions_hitStepsF (b : List Char) :
    ∀ (hs : List (Nat × Char)) (first : Bool) (pre bc ext : List Char),
    bc.length = b.length →
    ext.length = (if first then 1 else 0) →
    (∀ p ∈ hs, p.1 < b.length) →
    (∀ p ∈ hs, bc.drop (p.1 + 1) = b.drop (p.1 + 1)) →
    hs.Pairwise (fun p q => p.1 ≤ q.1) →
    applyActions (pre ++ bc ++ ext) (hitStepsF b first hs)
      = pre ++ applyHits bc hs ++ (if hs.isEmpty then ext else []) := by
  intro hs
  induction hs with
  | nil =>
    intro first pre bc ext hlen hext hb hd hpw
    simp [hitStepsF, applyActions, applyHits]
  | cons q t ih =>
    intro first pre bc ext hlen hext hb hd hpw
    simp only [hitStepsF]
    rw [applyActions_append]
    have hq1 : q.1 < b.length := hb q (List.mem_cons_self q t)
    have hdq : bc.drop (q.1 + 1) = b.drop (q.1 + 1) := hd q (List.mem_cons_self q t)
    rw [replaceCharAt_congr b bc q.1 q.2 first (hlen.symm) (hdq.symm)]
    rw [roundTrip_single pre bc q.1 q.2 first ext (by omega) hext]
    have hfield : pre ++ bc.set q.1 q.2 = pre ++ bc.set q.1 q.2 ++ ([] : List Char) := by
      simp
    rw [hfield, ih false pre (bc.set q.1 q.2) []
        (by rw [List.length_set]; exact hlen)
        (by simp)
        (fun p hp => hb p (List.mem_cons_of_mem q hp))
        (fun p hp => by
          rw [List.drop_set_of_lt _ _ (by
            have := List.rel_of_pairwise_cons hpw hp
            omega)]
          exact hd p (List.mem_cons_of_mem q hp))
        (List.Pairwise.of_cons hpw)]
    have happ : applyHits bc (q :: t) = applyHits (bc.set q.1 q.2) t := by
      simp [applyHits]
    rw [happ]
    cases htE : t.isEmpty <;> simp

end Vni

namespace Vni

lemma hitStepsF_eq_nil_iff (b : List Char) (first : Bool) (hs : List (Nat × Char)) :
    hitStepsF b first hs = [] ↔ hs = [] := by
  cases hs with
  | nil => simp [hitStepsF]
  | cons q t => simp [hitStepsF, replaceCharAt]

lemma handleKey_diacritic_core (b : List Char) (d : Char)
    (rules : List DiacriticMatch) (hne : d ≠ '\x00')
    (hdisp : handleNormalChar b d
      = some ((addDiacritic b rules).2, (addDiacritic b rules).1)) :
    handleKey b (pressKey d)
      = some (if (diacriticHits b rules).isEmpty then b ++ [d]
              else applyHits b (diacriticHits b rules),
              hitStepsF b true (diacriticHits b rules)) := by
  simp only [handleKey, pressKey]
  rw [if_neg (by decide), if_neg (by decide), hdisp]
  rw [addDiacritic_spec]
  simp only [hitStepsF_eq_nil_iff, List.isEmpty_iff, hne]
  simp only [ne_eq, hne, not_false_eq_true, true_and]
  split_ifs with h1
  · simp [h1, applyHits, hitStepsF]
  · rfl

lemma handleKey_tone_core (b : List Char) (d : Char) (map : List (Char × Char))
    (hne : d ≠ '\x00')
    (hdisp : handleNormalChar b d
      = (addAccent b map).map (fun acts => (b, acts))) :
    handleKey b (pressKey d)
      = (match getVowelForAccent b with
        | none => some (b ++ [d], [])
        | some v =>
          match map.lookup v.1 with
          | none => none
          | some r => some (b, replaceCharAt b v.2 r true)) := by
  simp only [handleKey, pressKey]
  rw [if_neg (by decide), if_neg (by decide), hdisp]
  simp only [addAccent]
  cases hv : getVowelForAccent b with
  | none => simp [hne]
  | some v =>
    cases hl : map.lookup v.1 with
    | none => simp [hl]
    | some r => simp [hl, replaceCharAt, hne]

lemma handleKey_diacritic_eq (b : List Char) (d : Char) (hd : d ∈ diacriticTriggers) :
    handleKey b (pressKey d)
      = some (if (diacriticHits b (diacriticRulesFor d)).isEmpty
                then b ++ [d]
                else applyHits b (diacriticHits b (diacriticRulesFor d)),
              hitStepsF b true (diacriticHits b (diacriticRulesFor d))) := by
  simp only [diacriticTriggers, List.mem_cons, List.not_mem_nil, or_false] at hd
  rcases hd with rfl | rfl | rfl | rfl
  · exact handleKey_diacritic_core b '6' circumflexRules (by decide) rfl
  · exact handleKey_diacritic_core b '7' hornRules (by decide) rfl
  · exact handleKey_diacritic_core b '8' breveRules (by decide) rfl
  · exact handleKey_diacritic_core b '9' crossedDRules (by decide) rfl

lemma handleKey_tone_eq (b : List Char) (d : Char) (hd : d ∈ toneTriggers) :
    handleKey b (pressKey d)
      = (match getVowelForAccent b with
        | none => some (b ++ [d], [])
        | some v =>
          match (toneMapFor d).lookup v.1 with
          | none => none
          | some r => some (b, replaceCharAt b v.2 r true)) := by
  simp only [toneTriggers, List.mem_cons, List.not_mem_nil, or_false] at hd
  rcases hd with rfl | rfl | rfl | rfl | rfl
  · exact handleKey_tone_core b '1' acuteMap (by decide) rfl
  · exact handleKey_tone_core b '2' graveMap (by decide) rfl
  · exact handleKey_tone_core b '3' hookAboveMap (by decide) rfl
  · exact handleKey_tone_core b '4' tildeMap (by decide) rfl
  · exact handleKey_tone_core b '5' dotMap (by decide) rfl

end Vni

namespace Vni

/-- C8: within a single diacritic-trigger call, the loop is equivalent
to collecting every position/rule pair whose condition holds (the scan
does not stop after the first match) and synthesizing each hit against
the original buffer, with only the first hit of the call synthesized as
a first edit (one extra backspace); the final buffer applies every hit. -/
theorem c8_theorem (b : List Char) (rules : List DiacriticMatch) :
    addDiacritic b rules
      = (hitStepsF b true (diacriticHits b rules),
         applyHits b (diacriticHits b rules)) :=
  addDiacritic_spec b rules

/-- C5: for every buffer and every pressed trigger digit with no
applicable match, `handle_key` returns an empty operation sequence and
the digit itself is appended to the buffer as an ordinary literal. -/
theorem c5_theorem (b : List Char) (d : Char)
    (h : noApplicableMatch b d = true) :
    handleKey b (pressKey d) = some (b ++ [d], []) := by
  unfold noApplicableMatch at h
  by_cases hd : d ∈ diacriticTriggers
  · rw [if_pos hd] at h
    rw [handleKey_diacritic_eq b d hd, if_pos h]
    have hnil : diacriticHits b (diacriticRulesFor d) = [] := List.isEmpty_iff.mp h
    rw [hnil]
    rfl
  · rw [if_neg hd] at h
    by_cases ht : d ∈ toneTriggers
    · rw [if_pos ht] at h
      have hnone : getVowelForAccent b = none := by
        cases hveq : getVowelForAccent b with
        | none => rfl
        | some v => rw [hveq] at h; cases h
      rw [handleKey_tone_eq b d ht, hnone]
    · rw [if_neg ht] at h
      cases h

/-- Witness for C5: the horn trigger '7' on the buffer `["x"]` matches
nothing, so the digit is appended and no operations are emitted. -/
theorem c5_witness : handleKey ['x'] (pressKey '7') = some (['x', '7'], []) :=
  c5_theorem ['x'] '7' (by decide)

/-- C1 (amended): for diacritic triggers, after the call every rewritten
position holds its replacement character and the buffer length is
unchanged (stated for rule sets with pairwise-distinct base letters,
which all four trigger rule sets are); for tone triggers, the buffer is
left entirely unchanged whenever operations are emitted — `add_accent`
performs the rewrite only in the emitted operations, never in the
buffer. -/
theorem c1_theorem :
    (∀ (b : List Char) (rules : List DiacriticMatch),
        rules.Pairwise (fun m₁ m₂ => m₁.ch ≠ m₂.ch) →
        ∀ p ∈ diacriticHits b rules,
          ((addDiacritic b rules).2.getD p.1 '\x00' = p.2 ∧
           (addDiacritic b rules).2.length = b.length)) ∧
    (∀ (b : List Char) (d : Char) (b' : List Char) (acts : List Action),
        d ∈ toneTriggers → handleKey b (pressKey d) = some (b', acts) →
        acts ≠ [] → b' = b) := by
  constructor
  · intro b rules hpw p hp
    rw [addDiacritic_spec]
    constructor
    · exact applyHits_getD (diacriticHits b rules) b
        (diacriticHits_pairwise_ne b rules hpw) p hp (diacriticHits_lt b rules p hp)
    · exact applyHits_length b (diacriticHits b rules)
  · intro b d b' acts ht hkey hacts
    rw [handleKey_tone_eq b d ht] at hkey
    cases hv : getVowelForAccent b with
    | none =>
      rw [hv] at hkey
      simp only [Option.some.injEq, Prod.mk.injEq] at hkey
      exact absurd hkey.2.symm hacts
    | some v =>
      rw [hv] at hkey
      have hkey2 : (match (toneMapFor d).lookup v.1 with
          | none => (none : Option (List Char × List Action))
          | some r => some (b, replaceCharAt b v.2 r true)) = some (b', acts) := hkey
      cases hl : (toneMapFor d).lookup v.1 with
      | none => rw [hl] at hkey2; cases hkey2
      | some r =>
        rw [hl] at hkey2
        simp only [Option.some.injEq, Prod.mk.injEq] at hkey2
        exact hkey2.1.symm

/-- Witness for C1 at concrete inputs: the circumflex rewrite of
`["a","u"]` puts 'â' at position 0 with the length preserved, and the
acute trigger on `["a"]` emits operations while leaving the buffer
`["a"]`. -/
theorem c1_witness :
    ((addDiacritic ['a', 'u'] circumflexRules).2.getD 0 '\x00' = 'â' ∧
     (addDiacritic ['a', 'u'] circumflexRules).2.length = 2) ∧
    (['a'] : List Char) = ['a'] :=
  ⟨c1_theorem.1 ['a', 'u'] circumflexRules (by decide) (0, 'â') (by decide),
   c1_theorem.2 ['a'] '1' ['a'] [Action.Backspace 2, Action.Insert 'á']
     (by decide) (by decide) (by decide)⟩

/-- C3 (amended): applying a synthesized single-rewrite operation
sequence to a text field whose trailing content is the pre-rewrite
buffer (plus one trailing trigger character on a first edit) yields the
buffer with that position replaced; and for diacritic triggers the full
emitted sequence of a `handle_key` call turns the pre-call field into
the post-call stored buffer.  (For tone triggers the stored buffer is
not updated, so the field matches the conceptual rewrite, not the
stored buffer — see the counterexample.) -/
theorem c3_theorem :
    (∀ (pre b : List Char) (i : Nat) (c trig : Char) (f : Bool), i < b.length →
        applyActions (pre ++ b ++ (if f then [trig] else []))
            (replaceCharAt b i c f)
          = pre ++ b.set i c) ∧
    (∀ (b : List Char) (d : Char) (pre b' : List Char) (acts : List Action),
        d ∈ diacriticTriggers →
        handleKey b (pressKey d) = some (b', acts) →
        applyActions (pre ++ b ++ [d]) acts = pre ++ b') := by
  constructor
  · intro pre b i c trig f hi
    exact roundTrip_single pre b i c f (if f then [trig] else []) hi
      (by cases f <;> simp)
  · intro b d pre b' acts hd hkey
    rw [handleKey_diacritic_eq b d hd] at hkey
    simp only [Option.some.injEq, Prod.mk.injEq] at hkey
    obtain ⟨hb', hacts⟩ := hkey
    subst hacts
    by_cases hE : (diacriticHits b (diacriticRulesFor d)).isEmpty = true
    · have hnil := List.isEmpty_iff.mp hE
      rw [if_pos hE] at hb'
      subst hb'
      rw [hnil]
      simp [hitStepsF, applyActions]
    · rw [if_neg hE] at hb'
      subst hb'
      have hrt := applyActions_hitStepsF b (diacriticHits b (diacriticRulesFor d))
        true pre b [d] rfl (by simp) (diacriticHits_lt b _) (fun p hp => rfl)
        (diacriticHits_pairwise_le b _)
      rw [hrt]
      have hEE : (diacriticHits b (diacriticRulesFor d)).isEmpty = false := by
        simpa using hE
      rw [hEE]
      simp

/-- Witness for C3 at concrete inputs: a first-edit rewrite of
`["t","o"]` at index 1, and the full circumflex call on `["a","u"]`. -/
theorem c3_witness :
    applyActions ['t', 'o', '1'] (replaceCharAt ['t', 'o'] 1 'ó' true)
      = ['t', 'ó'] ∧
    applyActions ['a', 'u', '6']
      [Action.Backspace 3, Action.Insert 'â', Action.Insert 'u'] = ['â', 'u'] :=
  ⟨c3_theorem.1 [] ['t', 'o'] 1 'ó' '1' true (by decide),
   c3_theorem.2 ['a', 'u'] '6' [] ['â', 'u']
     [Action.Backspace 3, Action.Insert 'â', Action.Insert 'u']
     (by decide) (by decide)⟩

/-- C9 (amended): a matched position is rewritten with the rule's
uppercase replacement exactly when the original character is ASCII
uppercase, and with the lowercase replacement otherwise — in
particular, a matched diacritic-marked (non-ASCII) uppercase letter
receives the lowercase form. -/
theorem c9_theorem (b : List Char) (rules : List DiacriticMatch)
    (hpw : rules.Pairwise (fun m₁ m₂ => m₁.ch ≠ m₂.ch))
    (i : Nat) (hi : i < b.length) (m : DiacriticMatch) (hm : m ∈ rules)
    (hc : matchCond b i m = true) :
    ((addDiacritic b rules).2).getD i '\x00'
      = (if isAsciiUppercase (b.getD i '\x00') then m.replaceWith.2
         else m.replaceWith.1) := by
  have hmem : (i, hitRepl b i m) ∈ diacriticHits b rules := by
    rw [diacriticHits]
    exact List.mem_flatMap.mpr ⟨i, List.mem_range.mpr hi,
      List.mem_filterMap.mpr ⟨m, hm, by rw [if_pos hc]⟩⟩
  rw [addDiacritic_spec]
  have hgd := applyHits_getD (diacriticHits b rules) b
    (diacriticHits_pairwise_ne b rules hpw) (i, hitRepl b i m) hmem hi
  simpa [hitRepl] using hgd

/-- Witness for C9: the ASCII uppercase 'A' at the end of the buffer is
matched by the circumflex rule and rewritten with the uppercase form
'Â'. -/
theorem c9_witness :
    ((addDiacritic ['A'] circumflexRules).2).getD 0 '\x00' = 'Â' := by
  have h := c9_theorem ['A'] circumflexRules (by decide) 0 (by decide)
    ⟨'a', ['u', 'n', 'm', 'p', 't', 'c', 'y'], ('â', 'Â')⟩ (by decide) (by decide)
  simpa using h

end Vni
